import Mathlib

/-!
Verification of the Gaussian-elimination factorizer (`details::decomp`,
`Decomp::operator()`) and triangular solver (`details::solve`,
`Solve::operator()`) of the repository.  The C `double` arithmetic is
modelled by exact rationals; flat C arrays are modelled as functions from
flat indices to values, and the loops of the source become folds over the
corresponding index lists, in source order.
-/

set_option maxHeartbeats 1000000

namespace Dimkashelk

/-- Flat rational buffer standing for a C `double*` array. -/
abbrev Buf := ℕ → ℚ

/-- Write one cell of a rational buffer. -/
def upd (f : Buf) (i : ℕ) (v : ℚ) : Buf := fun j => if j = i then v else f j

/-- Write one cell of the integer pivot array. -/
def updI (f : ℕ → ℤ) (i : ℕ) (v : ℤ) : ℕ → ℤ := fun j => if j = i then v else f j

/-- The constant `EPSILON = 2.2e-16` of `decomp`, as an exact rational. -/
def EPSILON : ℚ := 22 / 10 ^ 17

/-- Result of the elimination loop; `singular` is the early `goto DecompExit`
taken when a pivot is too small. -/
inductive ElimResult : Type
  | ok (a : Buf) (p : ℕ → ℤ)
  | singular (a : Buf) (p : ℕ → ℤ)

/-- Buffer component of an elimination result. -/
def ElimResult.aOut : ElimResult → Buf
  | .ok a _ => a
  | .singular a _ => a

/-- Whether an elimination result is the non-singular outcome. -/
def ElimResult.isOkB : ElimResult → Bool
  | .ok _ _ => true
  | .singular _ _ => false

/-- Pivot component of an elimination result. -/
def ElimResult.pOut : ElimResult → (ℕ → ℤ)
  | .ok _ p => p
  | .singular _ p => p

/-- Absolute sum of column `j`, the inner loop of the 1-norm computation. -/
def colAbsSum (a : Buf) (ndim n j : ℕ) : ℚ :=
  (List.range n).foldl (fun t i => t + |a (i * ndim + j)|) 0

/-- The 1-norm `anorm` of the matrix before elimination: the largest column
absolute sum. -/
def anormOf (a : Buf) (ndim n : ℕ) : ℚ :=
  (List.range n).foldl
    (fun acc j => let t := colAbsSum a ndim n j; if t > acc then t else acc) 0

/-- One comparison of the partial-pivot search: `mp` carries the current row
`m` and magnitude `pvt`, exactly as the C loop does. -/
def pivotFoldF (a : Buf) (ndim k : ℕ) : ℕ × ℚ → ℕ → ℕ × ℚ :=
  fun mp i => let t := |a (i * ndim + k)|; if t > mp.2 then (i, t) else mp

/-- Partial-pivot search over rows `k .. n-1` of column `k`. -/
def pivotSearch (a : Buf) (ndim n k : ℕ) : ℕ :=
  ((List.range' (k + 1) (n - (k + 1))).foldl (pivotFoldF a ndim k)
    (k, |a (k * ndim + k)|)).1

/-- Interchange rows `m` and `k` over columns `k .. n-1`. -/
def swapRows (a : Buf) (ndim n k m : ℕ) : Buf :=
  (List.range' k (n - k)).foldl
    (fun b j =>
      let t := b (m * ndim + j)
      upd (upd b (m * ndim + j) (b (k * ndim + j))) (k * ndim + j) t)
    a

/-- Eliminate row `i` at step `k`: store the multiplier in `a[i][k]` and update
the trailing entries of the row, skipping the update for a negligible
multiplier. -/
def elimRow (ndim n k : ℕ) (pvt anorm : ℚ) (b : Buf) (i : ℕ) : Buf :=
  let t := -(b (i * ndim + k) / pvt)
  let b1 := upd b (i * ndim + k) t
  (List.range' (k + 1) (n - (k + 1))).foldl
    (fun c j =>
      if |t| > anorm * EPSILON then
        upd c (i * ndim + j) (c (i * ndim + j) + c (k * ndim + j) * t)
      else c)
    b1

/-- One step `k` of Gaussian elimination with partial pivoting: record the
pivot row, swap when it differs from `k` (flipping the sign cell `n-1`), bail
out on a small pivot, otherwise eliminate the rows below. -/
def elimStep (ndim n k : ℕ) (anorm : ℚ) (a : Buf) (p : ℕ → ℤ) : ElimResult :=
  let m := pivotSearch a ndim n k
  let p1 := updI p k (m : ℤ)
  let pvt := a (m * ndim + k)
  let a1 := if m = k then a else swapRows a ndim n k m
  let p2 := if m = k then p1 else updI p1 (n - 1) (-p1 (n - 1))
  if |pvt| < anorm * EPSILON then .singular a1 p2
  else .ok ((List.range' (k + 1) (n - (k + 1))).foldl (elimRow ndim n k pvt anorm) a1) p2

/-- The elimination loop over steps `k = 0 .. n-2`, with the early singular
exit propagated. -/
def elimLoop (ndim n : ℕ) (anorm : ℚ) : List ℕ → Buf → (ℕ → ℤ) → ElimResult
  | [], a, p => .ok a p
  | k :: ks, a, p =>
    match elimStep ndim n k anorm a p with
    | .ok a1 p1 => elimLoop ndim n anorm ks a1 p1
    | .singular a1 p1 => .singular a1 p1

/-- Number of row interchanges the elimination loop performs before stopping. -/
def elimSwapCount (ndim n : ℕ) (anorm : ℚ) : List ℕ → Buf → (ℕ → ℤ) → ℕ
  | [], _, _ => 0
  | k :: ks, a, p =>
    let c := if pivotSearch a ndim n k = k then 0 else 1
    match elimStep ndim n k anorm a p with
    | .ok a1 p1 => c + elimSwapCount ndim n anorm ks a1 p1
    | .singular _ _ => c

/-- First condition-estimation loop of `decomp`: solve `(a-transpose) y = e`
choosing the signs `ek` for growth, bailing out on a small diagonal. -/
def condLoop1 (ndim n : ℕ) (anorm : ℚ) (a : Buf) : List ℕ → Buf → Option Buf
  | [], w => some w
  | k :: ks, w =>
    let t := (List.range k).foldl (fun s i => s + a (i * ndim + k) * w i) 0
    let ek : ℚ := if t < 0 then -1 else 1
    if |a (k * ndim + k)| < anorm * EPSILON then none
    else condLoop1 ndim n anorm a ks (upd w k (-(ek + t) / a (k * ndim + k)))

/-- Second condition-estimation loop of `decomp` (`k = n-2` down to `0`),
including the permutation replay on the work vector. -/
def condLoop2 (ndim n : ℕ) (a : Buf) (p : ℕ → ℤ) : List ℕ → Buf → Buf
  | [], w => w
  | k :: ks, w =>
    let t := (List.range' (k + 1) (n - (k + 1))).foldl
      (fun s i => s + a (i * ndim + k) * w i) 0
    let w1 := upd w k t
    let m := (p k).toNat
    let w2 := if m = k then w1 else upd (upd w1 m (w1 k)) k (w1 m)
    condLoop2 ndim n a p ks w2

/-- `details::solve`: the trivial one-element branch, otherwise permutation
replay with forward elimination followed by back substitution. -/
def solveQ (n ndim : ℕ) (a : Buf) (b : Buf) (p : ℕ → ℤ) : Buf :=
  if n = 1 then upd b 0 (b 0 / a 0)
  else
    let b1 := (List.range (n - 1)).foldl
      (fun b k =>
        let m := (p k).toNat
        let t := b m
        let b2 := upd (upd b m (b k)) k t
        (List.range' (k + 1) (n - (k + 1))).foldl
          (fun c i => upd c i (c i + a (i * ndim + k) * t)) b2)
      b
    ((List.range n).reverse).foldl
      (fun b k =>
        let t := (List.range' (k + 1) (n - (k + 1))).foldl
          (fun s j => s - a (k * ndim + j) * b j) (b k)
        upd b k (t / a (k * ndim + k)))
      b1

/-- 1-norm of the first `n` entries of a vector. -/
def l1norm (w : Buf) (n : ℕ) : ℚ :=
  (List.range n).foldl (fun s i => s + |w i|) 0

/-- Output block of `details::decomp`: the factor buffer, the pivot array,
the condition estimate and the status flag. -/
structure DecompOut : Type where
  a : Buf
  pivot : ℕ → ℤ
  cond : ℚ
  flag : ℕ

/-- Tail of `decomp` after a complete elimination and a successful first
condition loop: the second loop, the two norms, the floored condition
estimate, and the `cond + 1 == cond` singularity test. -/
def condEstimate (n ndim : ℕ) (anorm : ℚ) (a1 : Buf) (p1 : ℕ → ℤ) (w1 : Buf) : ℚ × ℕ :=
  let w2 := condLoop2 ndim n a1 p1 ((List.range (n - 1)).reverse) w1
  let ynorm := l1norm w2 n
  let z := solveQ n ndim a1 w2 p1
  let znorm := l1norm z n
  let cond1 := anorm * znorm / ynorm
  let cond2 := if cond1 < 1 then 1 else cond1
  (cond2, if cond2 + 1 = cond2 then 3 else 0)

/-- `details::decomp`.  The null-ness of the two pointer arguments is carried
as the booleans `aN` and `pN`; `a`, `cond0` and `p` are the contents of the
caller's memory before the call, returned unchanged on the flag-2 path.
Flag values: 0 ok, 2 illegal input, 3 singular (the workspace allocation of
the C code cannot fail in the model, so flag 1 does not arise). -/
def decompQ (n ndim : ℕ) (aN pN : Bool) (a : Buf) (cond0 : ℚ) (p : ℕ → ℤ) : DecompOut :=
  if aN = true ∨ pN = true ∨ n < 1 ∨ ndim < n then ⟨a, p, cond0, 2⟩
  else
    let p0 := updI p (n - 1) 1
    if n = 1 then
      if a 0 = 0 then ⟨a, p0, 10 ^ 32, 3⟩ else ⟨a, p0, 1, 0⟩
    else
      let anorm := anormOf a ndim n
      match elimLoop ndim n anorm (List.range (n - 1)) a p0 with
      | .singular a1 p1 => ⟨a1, p1, 10 ^ 32, 3⟩
      | .ok a1 p1 =>
        match condLoop1 ndim n anorm a1 (List.range n) (fun _ => 0) with
        | none => ⟨a1, p1, 10 ^ 32, 3⟩
        | some w1 =>
          let ce := condEstimate n ndim anorm a1 p1 w1
          ⟨a1, p1, ce.1, ce.2⟩

/-- `Decomp::operator()`: emptiness check, first-row squareness check, row by
row flattening into a fresh buffer, then `decomp`.  Freshly allocated,
uninitialised cells are modelled as zero. -/
def DecompOp (matrix : List (List ℚ)) : Except String DecompOut :=
  if matrix.isEmpty then .error "Check matrix"
  else if matrix.length ≠ matrix.headI.length then .error "Check size of matrix"
  else
    let n := matrix.length
    let flat := matrix.flatten
    .ok (decompQ n n false false (fun i => flat.getD i 0) 0 (fun _ => 0))

/-- Observable state after `Solve::operator()`: the caller's right-hand-side
vector as the call leaves it, and the internally owned solution storage. -/
structure SolveOut : Type where
  caller_right : List ℚ
  data_right : Buf

/-- The call `details::solve(size, size, dec.data_, data_right_, dec.pivot_)`
made by `Solve::operator()`: only the buffer and pivot fields of the
factorization are passed on. -/
def solveWithFactor (n : ℕ) (d : DecompOut) (b : Buf) : Buf :=
  solveQ n n d.a b d.pivot

/-- `Solve::operator()`: size check, copy of the right-hand side into owned
storage, a fresh factorization of the left matrix, then `details::solve` on
the internal copy.  The caller's vector is never written. -/
def SolveOp (matrix_left : List (List ℚ)) (matrix_right : List ℚ) :
    Except String SolveOut :=
  if matrix_left.length ≠ matrix_right.length then .error "Check data"
  else
    match DecompOp matrix_left with
    | .error e => .error e
    | .ok dec =>
      .ok ⟨matrix_right,
           solveWithFactor matrix_left.length dec (fun i => matrix_right.getD i 0)⟩

/-- Success test for an `Except` result (the call returned rather than threw). -/
def exceptIsOk {α : Type} : Except String α → Bool
  | .ok _ => true
  | .error _ => false

/-- Flattened 3×3 example matrix `[[1,1,0],[1,1,0],[0,0,1]]`, whose second
elimination step meets an exactly zero pivot. -/
def exSingular3 : Buf := fun t => [(1 : ℚ), 1, 0, 1, 1, 0, 0, 0, 1].getD t 0

/-- Flattened 2×2 example matrix `[[2,1],[1,3]]` (well conditioned). -/
def exWell2 : Buf := fun t => [(2 : ℚ), 1, 1, 3].getD t 0

/-- Flattened 2×2 example upper buffer `[[2,2],[1,0]]` with a zero diagonal
cell, as met by the condition-estimation back-substitution. -/
def exCondBail2 : Buf := fun t => [(2 : ℚ), 2, 1, 0].getD t 0

/-- The all-zero rational buffer. -/
def zeroB : Buf := fun _ => 0

/-- The all-zero pivot array. -/
def zeroP : ℕ → ℤ := fun _ => 0

/-- The all-one pivot array. -/
def oneP : ℕ → ℤ := fun _ => 1

/-- Flattened 2×2 example matrix `[[0,1],[0,1]]`, whose first column is zero:
elimination bails out at step 0 with no swap and no elimination applied. -/
def exColZero2 : Buf := fun t => [(0 : ℚ), 1, 0, 1].getD t 0

/-- Flattened identity matrix of order `n`. -/
def idB (n : ℕ) : Buf := fun t => if t / n = t % n then 1 else 0

/-- Flattened 2×2 example matrix `[[0,1],[1,0]]`. -/
def exAnti2 : Buf := fun t => [(0 : ℚ), 1, 1, 0].getD t 0

/-- The buffer region `n × n` (with stride `ndim`) holds the identity matrix. -/
def IsIdOn (a : Buf) (ndim n : ℕ) : Prop :=
  ∀ i, i < n → ∀ j, j < n → a (i * ndim + j) = if i = j then 1 else 0

instance (a : Buf) (ndim n : ℕ) : Decidable (IsIdOn a ndim n) :=
  Nat.decidableBallLT n fun i _ => ∀ j, j < n → a (i * ndim + j) = if i = j then 1 else 0

/-!  Basic facts about cell updates and the folds the routines are built
from.  The small `List.range` evaluations support concrete runs of the
routines inside `norm_num`. -/

theorem range_zero : List.range 0 = [] := rfl

theorem range_one : List.range 1 = [0] := rfl

theorem range_two : List.range 2 = [0, 1] := rfl

theorem range_three : List.range 3 = [0, 1, 2] := rfl

theorem range'_zero (s : ℕ) : List.range' s 0 = [] := rfl

theorem range'_one (s : ℕ) : List.range' s 1 = [s] := rfl

theorem range'_two (s : ℕ) : List.range' s 2 = [s, s + 1] := rfl

theorem upd_same (f : Buf) (i : ℕ) (v : ℚ) : upd f i v i = v := by simp [upd]

theorem upd_ne (f : Buf) {i j : ℕ} (v : ℚ) (h : j ≠ i) : upd f i v j = f j := by
  simp [upd, h]

theorem updI_same (f : ℕ → ℤ) (i : ℕ) (v : ℤ) : updI f i v i = v := by simp [updI]

theorem updI_ne (f : ℕ → ℤ) {i j : ℕ} (v : ℤ) (h : j ≠ i) : updI f i v j = f j := by
  simp [updI, h]

theorem foldl_add_eq (f : ℕ → ℚ) :
    ∀ (l : List ℕ) (s : ℚ), l.foldl (fun acc i => acc + f i) s = s + (l.map f).sum := by
  intro l
  induction l with
  | nil => simp
  | cons x xs ih => intro s; simp [List.foldl_cons, ih, add_assoc]

theorem foldl_add_zero (g : ℕ → ℚ) :
    ∀ (l : List ℕ) (s : ℚ), (∀ j ∈ l, g j = 0) → l.foldl (fun s j => s + g j) s = s := by
  intro l
  induction l with
  | nil => intro s _; rfl
  | cons x xs ih =>
    intro s h
    have hx : g x = 0 := h x (List.mem_cons_self x xs)
    simp only [List.foldl_cons, hx, add_zero]
    exact ih s fun j hj => h j (List.mem_cons_of_mem x hj)

theorem foldl_sub_zero (g : ℕ → ℚ) :
    ∀ (l : List ℕ) (s : ℚ), (∀ j ∈ l, g j = 0) → l.foldl (fun s j => s - g j) s = s := by
  intro l
  induction l with
  | nil => intro s _; rfl
  | cons x xs ih =>
    intro s h
    have hx : g x = 0 := h x (List.mem_cons_self x xs)
    simp only [List.foldl_cons, hx, sub_zero]
    exact ih s fun j hj => h j (List.mem_cons_of_mem x hj)

theorem foldl_fixed {α β : Type} (step : α → β → α) :
    ∀ (l : List β) (x : α), (∀ y b, b ∈ l → step y b = y) → l.foldl step x = x := by
  intro l
  induction l with
  | nil => intro x _; rfl
  | cons b bs ih =>
    intro x h
    rw [List.foldl_cons, h x b (List.mem_cons_self b bs)]
    exact ih x fun y c hc => h y c (List.mem_cons_of_mem b hc)

theorem foldl_pointwise_fixed (step : Buf → ℕ → Buf) :
    ∀ (l : List ℕ), (∀ b j, j ∈ l → ∀ x, step b j x = b x) →
      ∀ (b : Buf) (x : ℕ), l.foldl step b x = b x := by
  intro l
  induction l with
  | nil => intro _ b x; rfl
  | cons j js ih =>
    intro h b x
    rw [List.foldl_cons, ih (fun c i hi y => h c i (List.mem_cons_of_mem j hi) y)]
    exact h b j (List.mem_cons_self j js) x

theorem foldl_pointwise_fixed_of_inv (P : Buf → Prop)
    (hP : ∀ b c : Buf, (∀ x, b x = c x) → P b → P c) (step : Buf → ℕ → Buf) :
    ∀ (l : List ℕ), (∀ b j, j ∈ l → P b → ∀ x, step b j x = b x) →
      ∀ (b : Buf), P b → ∀ x, l.foldl step b x = b x := by
  intro l
  induction l with
  | nil => intro _ b _ x; rfl
  | cons j js ih =>
    intro h b hb x
    have hstep : ∀ y, step b j y = b y := h b j (List.mem_cons_self j js) hb
    rw [List.foldl_cons,
        ih (fun c i hi hc y => h c i (List.mem_cons_of_mem j hi) hc y) (step b j)
          (hP b (step b j) (fun y => (hstep y).symm) hb)]
    exact hstep x

theorem sum_map_ite_range_ge (j : ℕ) (v : ℚ) :
    ∀ (n : ℕ), n ≤ j → ((List.range n).map fun i => if i = j then v else 0).sum = 0 := by
  intro n
  induction n with
  | zero => intro _; rfl
  | succ m ih =>
    intro h
    rw [List.range_succ, List.map_append, List.sum_append, ih (Nat.le_of_succ_le h)]
    have : m ≠ j := Nat.ne_of_lt h
    simp [this]

theorem sum_map_ite_range (n j : ℕ) (v : ℚ) (hj : j < n) :
    ((List.range n).map fun i => if i = j then v else 0).sum = v := by
  induction n with
  | zero => exact absurd hj (Nat.not_lt_zero j)
  | succ m ih =>
    rw [List.range_succ, List.map_append, List.sum_append]
    rcases Nat.lt_or_ge j m with hjm | hjm
    · have : m ≠ j := (Nat.ne_of_lt hjm).symm
      simp [ih hjm, this]
    · have hmj : j = m := Nat.le_antisymm (Nat.lt_succ_iff.mp hj) hjm
      subst hmj
      simp [sum_map_ite_range_ge j v j (le_refl j)]

/-- Flat indices of distinct in-range cells are distinct. -/
theorem flatIndex_inj {ndim i j i2 j2 : ℕ} (hj : j < ndim) (hj2 : j2 < ndim)
    (h : i * ndim + j = i2 * ndim + j2) : i = i2 ∧ j = j2 := by
  have hpos : 0 < ndim := Nat.lt_of_le_of_lt (Nat.zero_le j) hj
  have hi : i = i2 := by
    have h1 : (i * ndim + j) / ndim = i := by
      rw [Nat.mul_comm i ndim, Nat.mul_add_div hpos, Nat.div_eq_of_lt hj, Nat.add_zero]
    have h2 : (i2 * ndim + j2) / ndim = i2 := by
      rw [Nat.mul_comm i2 ndim, Nat.mul_add_div hpos, Nat.div_eq_of_lt hj2, Nat.add_zero]
    rw [← h1, h, h2]
  refine ⟨hi, ?_⟩
  subst hi
  exact Nat.add_left_cancel h

/-!  Path lemmas: how `decompQ` composes from its loops. -/

theorem decompQ_flag2 (n ndim : ℕ) (aN pN : Bool) (a : Buf) (c : ℚ) (p : ℕ → ℤ)
    (h : aN = true ∨ pN = true ∨ n < 1 ∨ ndim < n) :
    decompQ n ndim aN pN a c p = ⟨a, p, c, 2⟩ := by
  unfold decompQ
  rw [if_pos h]

theorem decompQ_match_form (n ndim : ℕ) (a : Buf) (c : ℚ) (p : ℕ → ℤ)
    (hg : ¬(n < 1 ∨ ndim < n)) (hn1 : n ≠ 1) :
    decompQ n ndim false false a c p =
      (match elimLoop ndim n (anormOf a ndim n) (List.range (n - 1)) a
          (updI p (n - 1) 1) with
       | .singular a1 p1 => ⟨a1, p1, 10 ^ 32, 3⟩
       | .ok a1 p1 =>
         match condLoop1 ndim n (anormOf a ndim n) a1 (List.range n) (fun _ => 0) with
         | none => ⟨a1, p1, 10 ^ 32, 3⟩
         | some w1 =>
           ⟨a1, p1, (condEstimate n ndim (anormOf a ndim n) a1 p1 w1).1,
             (condEstimate n ndim (anormOf a ndim n) a1 p1 w1).2⟩) := by
  unfold decompQ
  rw [if_neg (by simpa using hg), if_neg hn1]

theorem decompQ_elim_singular (n ndim : ℕ) (a : Buf) (c : ℚ) (p : ℕ → ℤ)
    (a1 : Buf) (p1 : ℕ → ℤ) (hg : ¬(n < 1 ∨ ndim < n)) (hn1 : n ≠ 1)
    (hE : elimLoop ndim n (anormOf a ndim n) (List.range (n - 1)) a (updI p (n - 1) 1) =
      .singular a1 p1) :
    decompQ n ndim false false a c p = ⟨a1, p1, 10 ^ 32, 3⟩ := by
  rw [decompQ_match_form n ndim a c p hg hn1, hE]

theorem decompQ_cond1_none (n ndim : ℕ) (a : Buf) (c : ℚ) (p : ℕ → ℤ)
    (a1 : Buf) (p1 : ℕ → ℤ) (hg : ¬(n < 1 ∨ ndim < n)) (hn1 : n ≠ 1)
    (hE : elimLoop ndim n (anormOf a ndim n) (List.range (n - 1)) a (updI p (n - 1) 1) =
      .ok a1 p1)
    (hC : condLoop1 ndim n (anormOf a ndim n) a1 (List.range n) (fun _ => 0) = none) :
    decompQ n ndim false false a c p = ⟨a1, p1, 10 ^ 32, 3⟩ := by
  rw [decompQ_match_form n ndim a c p hg hn1, hE]
  show (match condLoop1 ndim n (anormOf a ndim n) a1 (List.range n) (fun _ => 0) with
        | none => ({ a := a1, pivot := p1, cond := 10 ^ 32, flag := 3 } : DecompOut)
        | some w1 =>
          ⟨a1, p1, (condEstimate n ndim (anormOf a ndim n) a1 p1 w1).1,
            (condEstimate n ndim (anormOf a ndim n) a1 p1 w1).2⟩) = _
  rw [hC]

theorem decompQ_ok_path (n ndim : ℕ) (a : Buf) (c : ℚ) (p : ℕ → ℤ)
    (a1 : Buf) (p1 : ℕ → ℤ) (w1 : Buf) (hg : ¬(n < 1 ∨ ndim < n)) (hn1 : n ≠ 1)
    (hE : elimLoop ndim n (anormOf a ndim n) (List.range (n - 1)) a (updI p (n - 1) 1) =
      .ok a1 p1)
    (hC : condLoop1 ndim n (anormOf a ndim n) a1 (List.range n) (fun _ => 0) = some w1) :
    decompQ n ndim false false a c p =
      ⟨a1, p1, (condEstimate n ndim (anormOf a ndim n) a1 p1 w1).1,
        (condEstimate n ndim (anormOf a ndim n) a1 p1 w1).2⟩ := by
  rw [decompQ_match_form n ndim a c p hg hn1, hE]
  show (match condLoop1 ndim n (anormOf a ndim n) a1 (List.range n) (fun _ => 0) with
        | none => ({ a := a1, pivot := p1, cond := 10 ^ 32, flag := 3 } : DecompOut)
        | some w1 =>
          ⟨a1, p1, (condEstimate n ndim (anormOf a ndim n) a1 p1 w1).1,
            (condEstimate n ndim (anormOf a ndim n) a1 p1 w1).2⟩) = _
  rw [hC]

/-- One elimination step bails out exactly on a small pivot, and both outcomes
carry the same pivot record; the buffer it starts from is the swapped one
exactly when the pivot row differs from `k`. -/
theorem elimStep_eq (ndim n k : ℕ) (anorm : ℚ) (a : Buf) (p : ℕ → ℤ) :
    elimStep ndim n k anorm a p =
      (if |a (pivotSearch a ndim n k * ndim + k)| < anorm * EPSILON then
        ElimResult.singular
          (if pivotSearch a ndim n k = k then a
           else swapRows a ndim n k (pivotSearch a ndim n k))
          (if pivotSearch a ndim n k = k then updI p k (pivotSearch a ndim n k : ℤ)
           else updI (updI p k (pivotSearch a ndim n k : ℤ)) (n - 1)
                  (-(updI p k (pivotSearch a ndim n k : ℤ) (n - 1))))
      else
        ElimResult.ok
          ((List.range' (k + 1) (n - (k + 1))).foldl
            (elimRow ndim n k (a (pivotSearch a ndim n k * ndim + k)) anorm)
            (if pivotSearch a ndim n k = k then a
             else swapRows a ndim n k (pivotSearch a ndim n k)))
          (if pivotSearch a ndim n k = k then updI p k (pivotSearch a ndim n k : ℤ)
           else updI (updI p k (pivotSearch a ndim n k : ℤ)) (n - 1)
                  (-(updI p k (pivotSearch a ndim n k : ℤ) (n - 1))))) := rfl

theorem elimStep_pOut (ndim n k : ℕ) (anorm : ℚ) (a : Buf) (p : ℕ → ℤ) :
    (elimStep ndim n k anorm a p).pOut =
      (if pivotSearch a ndim n k = k then updI p k (pivotSearch a ndim n k : ℤ)
       else updI (updI p k (pivotSearch a ndim n k : ℤ)) (n - 1)
              (-(updI p k (pivotSearch a ndim n k : ℤ) (n - 1)))) := by
  rw [elimStep_eq]
  split <;> rfl

theorem elimLoop_cons_ok (ndim n : ℕ) (anorm : ℚ) (k : ℕ) (ks : List ℕ) (a : Buf)
    (p : ℕ → ℤ) (a1 : Buf) (p1 : ℕ → ℤ)
    (h : elimStep ndim n k anorm a p = .ok a1 p1) :
    elimLoop ndim n anorm (k :: ks) a p = elimLoop ndim n anorm ks a1 p1 := by
  have hdef : elimLoop ndim n anorm (k :: ks) a p =
      (match elimStep ndim n k anorm a p with
       | .ok a2 p2 => elimLoop ndim n anorm ks a2 p2
       | .singular a2 p2 => .singular a2 p2) := rfl
  rw [hdef, h]

theorem elimLoop_cons_singular (ndim n : ℕ) (anorm : ℚ) (k : ℕ) (ks : List ℕ) (a : Buf)
    (p : ℕ → ℤ) (a1 : Buf) (p1 : ℕ → ℤ)
    (h : elimStep ndim n k anorm a p = .singular a1 p1) :
    elimLoop ndim n anorm (k :: ks) a p = .singular a1 p1 := by
  have hdef : elimLoop ndim n anorm (k :: ks) a p =
      (match elimStep ndim n k anorm a p with
       | .ok a2 p2 => elimLoop ndim n anorm ks a2 p2
       | .singular a2 p2 => .singular a2 p2) := rfl
  rw [hdef, h]

theorem condLoop1_cons_none (ndim n : ℕ) (anorm : ℚ) (a : Buf) (k : ℕ) (ks : List ℕ)
    (w : Buf) (h : |a (k * ndim + k)| < anorm * EPSILON) :
    condLoop1 ndim n anorm a (k :: ks) w = none := by
  unfold condLoop1
  rw [if_pos h]

theorem ite_lt_one_eq_max (x : ℚ) : (if x < 1 then (1 : ℚ) else x) = max 1 x := by
  rcases lt_or_le x 1 with h | h
  · rw [if_pos h, max_eq_left h.le]
  · rw [if_neg (not_lt.mpr h), max_eq_right h]

theorem condEstimate_fst (n ndim : ℕ) (anorm : ℚ) (a1 : Buf) (p1 : ℕ → ℤ) (w1 : Buf) :
    (condEstimate n ndim anorm a1 p1 w1).1 =
      max 1 (anorm *
        l1norm (solveQ n ndim a1
          (condLoop2 ndim n a1 p1 ((List.range (n - 1)).reverse) w1) p1) n /
        l1norm (condLoop2 ndim n a1 p1 ((List.range (n - 1)).reverse) w1) n) := by
  show (if anorm *
        l1norm (solveQ n ndim a1
          (condLoop2 ndim n a1 p1 ((List.range (n - 1)).reverse) w1) p1) n /
        l1norm (condLoop2 ndim n a1 p1 ((List.range (n - 1)).reverse) w1) n < 1
      then (1 : ℚ)
      else anorm *
        l1norm (solveQ n ndim a1
          (condLoop2 ndim n a1 p1 ((List.range (n - 1)).reverse) w1) p1) n /
        l1norm (condLoop2 ndim n a1 p1 ((List.range (n - 1)).reverse) w1) n) = _
  exact ite_lt_one_eq_max _

theorem condEstimate_snd (n ndim : ℕ) (anorm : ℚ) (a1 : Buf) (p1 : ℕ → ℤ) (w1 : Buf) :
    (condEstimate n ndim anorm a1 p1 w1).2 =
      (if (condEstimate n ndim anorm a1 p1 w1).1 + 1 =
          (condEstimate n ndim anorm a1 p1 w1).1 then 3 else 0) := rfl

/-!  The pivot search returns the row of largest magnitude, and the sign cell
`pivot[n-1]` accumulates the parity of the interchanges. -/

theorem pivotFold_spec (a : Buf) (ndim k : ℕ) :
    ∀ (l : List ℕ) (mp : ℕ × ℚ), mp.2 = |a (mp.1 * ndim + k)| →
      (l.foldl (pivotFoldF a ndim k) mp).2 =
          |a ((l.foldl (pivotFoldF a ndim k) mp).1 * ndim + k)|
      ∧ ((l.foldl (pivotFoldF a ndim k) mp).1 = mp.1 ∨
          (l.foldl (pivotFoldF a ndim k) mp).1 ∈ l)
      ∧ mp.2 ≤ (l.foldl (pivotFoldF a ndim k) mp).2
      ∧ ∀ i ∈ l, |a (i * ndim + k)| ≤ (l.foldl (pivotFoldF a ndim k) mp).2 := by
  intro l
  induction l with
  | nil =>
    intro mp h
    exact ⟨h, Or.inl rfl, le_refl _, by simp⟩
  | cons x xs ih =>
    intro mp h
    rw [List.foldl_cons]
    by_cases hx : |a (x * ndim + k)| > mp.2
    · have hstep : pivotFoldF a ndim k mp x = (x, |a (x * ndim + k)|) := by
        show (if |a (x * ndim + k)| > mp.2 then (x, |a (x * ndim + k)|) else mp) = _
        rw [if_pos hx]
      rw [hstep]
      obtain ⟨h1, h2, h3, h4⟩ := ih (x, |a (x * ndim + k)|) rfl
      refine ⟨h1, ?_, ?_, ?_⟩
      · rcases h2 with h2 | h2
        · exact Or.inr (by rw [h2]; exact List.mem_cons_self x xs)
        · exact Or.inr (List.mem_cons_of_mem x h2)
      · exact le_trans (le_of_lt hx) h3
      · intro i hi
        rcases List.mem_cons.mp hi with rfl | hi2
        · exact h3
        · exact h4 i hi2
    · have hstep : pivotFoldF a ndim k mp x = mp := by
        show (if |a (x * ndim + k)| > mp.2 then (x, |a (x * ndim + k)|) else mp) = _
        rw [if_neg hx]
      rw [hstep]
      obtain ⟨h1, h2, h3, h4⟩ := ih mp h
      refine ⟨h1, ?_, h3, ?_⟩
      · rcases h2 with h2 | h2
        · exact Or.inl h2
        · exact Or.inr (List.mem_cons_of_mem x h2)
      · intro i hi
        rcases List.mem_cons.mp hi with rfl | hi2
        · exact le_trans (not_lt.mp hx) h3
        · exact h4 i hi2

theorem pivotSearch_spec (a : Buf) (ndim n k : ℕ) (hk : k < n) :
    k ≤ pivotSearch a ndim n k ∧ pivotSearch a ndim n k < n ∧
      ∀ i, k ≤ i → i < n →
        |a (i * ndim + k)| ≤ |a (pivotSearch a ndim n k * ndim + k)| := by
  obtain ⟨h1, h2, h3, h4⟩ := pivotFold_spec a ndim k (List.range' (k + 1) (n - (k + 1)))
    (k, |a (k * ndim + k)|) rfl
  have hps : pivotSearch a ndim n k =
      ((List.range' (k + 1) (n - (k + 1))).foldl (pivotFoldF a ndim k)
        (k, |a (k * ndim + k)|)).1 := rfl
  have hlen : k + 1 + (n - (k + 1)) = n := by omega
  constructor
  · rw [hps]
    rcases h2 with h2 | h2
    · rw [h2]
    · rw [List.mem_range'_1] at h2
      omega
  constructor
  · rw [hps]
    rcases h2 with h2 | h2
    · rw [h2]; exact hk
    · rw [List.mem_range'_1] at h2
      omega
  · intro i hik hin
    have hgoal : |a (i * ndim + k)| ≤
        ((List.range' (k + 1) (n - (k + 1))).foldl (pivotFoldF a ndim k)
          (k, |a (k * ndim + k)|)).2 := by
      rcases Nat.eq_or_lt_of_le hik with rfl | hik2
      · exact h3
      · exact h4 i (List.mem_range'_1.mpr ⟨by omega, by omega⟩)
    rw [hps, ← h1]
    exact hgoal

theorem elimStep_pOut_k (ndim n k : ℕ) (anorm : ℚ) (a : Buf) (p : ℕ → ℤ)
    (hk : k + 1 < n) :
    (elimStep ndim n k anorm a p).pOut k = (pivotSearch a ndim n k : ℤ) := by
  rw [elimStep_pOut]
  by_cases hm : pivotSearch a ndim n k = k
  · rw [if_pos hm, updI_same]
  · rw [if_neg hm, updI_ne _ _ (by omega : k ≠ n - 1), updI_same]

theorem elimStep_pOut_sign (ndim n k : ℕ) (anorm : ℚ) (a : Buf) (p : ℕ → ℤ)
    (hk : k + 1 < n) :
    (elimStep ndim n k anorm a p).pOut (n - 1) =
      (if pivotSearch a ndim n k = k then p (n - 1) else -(p (n - 1))) := by
  rw [elimStep_pOut]
  by_cases hm : pivotSearch a ndim n k = k
  · rw [if_pos hm, if_pos hm, updI_ne _ _ (by omega : n - 1 ≠ k)]
  · rw [if_neg hm, if_neg hm, updI_same, updI_ne _ _ (by omega : n - 1 ≠ k)]

theorem elimSwapCount_cons_ok (ndim n : ℕ) (anorm : ℚ) (k : ℕ) (ks : List ℕ) (a : Buf)
    (p : ℕ → ℤ) (a1 : Buf) (p1 : ℕ → ℤ)
    (h : elimStep ndim n k anorm a p = .ok a1 p1) :
    elimSwapCount ndim n anorm (k :: ks) a p =
      (if pivotSearch a ndim n k = k then 0 else 1) + elimSwapCount ndim n anorm ks a1 p1 := by
  have hdef : elimSwapCount ndim n anorm (k :: ks) a p =
      (match elimStep ndim n k anorm a p with
       | .ok a2 p2 =>
         (if pivotSearch a ndim n k = k then 0 else 1) + elimSwapCount ndim n anorm ks a2 p2
       | .singular _ _ => (if pivotSearch a ndim n k = k then 0 else 1)) := rfl
  rw [hdef, h]

theorem elimSwapCount_cons_singular (ndim n : ℕ) (anorm : ℚ) (k : ℕ) (ks : List ℕ)
    (a : Buf) (p : ℕ → ℤ) (a1 : Buf) (p1 : ℕ → ℤ)
    (h : elimStep ndim n k anorm a p = .singular a1 p1) :
    elimSwapCount ndim n anorm (k :: ks) a p =
      (if pivotSearch a ndim n k = k then 0 else 1) := by
  have hdef : elimSwapCount ndim n anorm (k :: ks) a p =
      (match elimStep ndim n k anorm a p with
       | .ok a2 p2 =>
         (if pivotSearch a ndim n k = k then 0 else 1) + elimSwapCount ndim n anorm ks a2 p2
       | .singular _ _ => (if pivotSearch a ndim n k = k then 0 else 1)) := rfl
  rw [hdef, h]

theorem elimLoop_parity (ndim n : ℕ) (anorm : ℚ) :
    ∀ (ks : List ℕ) (a : Buf) (p : ℕ → ℤ), (∀ k ∈ ks, k + 1 < n) →
      (elimLoop ndim n anorm ks a p).pOut (n - 1) =
        (-1) ^ elimSwapCount ndim n anorm ks a p * p (n - 1) := by
  intro ks
  induction ks with
  | nil =>
    intro a p _
    show p (n - 1) = (-1) ^ (0 : ℕ) * p (n - 1)
    rw [pow_zero, one_mul]
  | cons k ks ih =>
    intro a p hks
    have hk : k + 1 < n := hks k (List.mem_cons_self k ks)
    have hsign := elimStep_pOut_sign ndim n k anorm a p hk
    cases hstep : elimStep ndim n k anorm a p with
    | singular a1 p1 =>
      rw [elimLoop_cons_singular ndim n anorm k ks a p a1 p1 hstep,
          elimSwapCount_cons_singular ndim n anorm k ks a p a1 p1 hstep]
      rw [hstep] at hsign
      by_cases hm : pivotSearch a ndim n k = k
      · rw [if_pos hm] at hsign ⊢
        rw [pow_zero, one_mul]
        exact hsign
      · rw [if_neg hm] at hsign ⊢
        rw [pow_one]
        show p1 (n - 1) = _
        rw [show (ElimResult.singular a1 p1).pOut (n - 1) = p1 (n - 1) from rfl] at hsign
        rw [hsign]
        ring
    | ok a1 p1 =>
      rw [elimLoop_cons_ok ndim n anorm k ks a p a1 p1 hstep,
          elimSwapCount_cons_ok ndim n anorm k ks a p a1 p1 hstep,
          ih a1 p1 (fun j hj => hks j (List.mem_cons_of_mem k hj))]
      rw [hstep] at hsign
      rw [show (ElimResult.ok a1 p1).pOut (n - 1) = p1 (n - 1) from rfl] at hsign
      rw [hsign]
      by_cases hm : pivotSearch a ndim n k = k
      · rw [if_pos hm, if_pos hm, zero_add]
      · rw [if_neg hm, if_neg hm, pow_add, pow_one]
        ring

/-!  Behaviour of the routines on the identity matrix. -/

theorem isIdOn_ext (ndim n : ℕ) (b c : Buf) (h : ∀ x, b x = c x)
    (hb : IsIdOn b ndim n) : IsIdOn c ndim n := by
  intro i hi j hj
  rw [← h (i * ndim + j)]
  exact hb i hi j hj

theorem colAbsSum_id (a : Buf) (ndim n : ℕ) (ha : IsIdOn a ndim n)
    (j : ℕ) (hj : j < n) : colAbsSum a ndim n j = 1 := by
  unfold colAbsSum
  rw [foldl_add_eq]
  have hmap : (List.range n).map (fun i => |a (i * ndim + j)|) =
      (List.range n).map (fun i => if i = j then (1 : ℚ) else 0) := by
    apply List.map_congr_left
    intro i hi
    rw [ha i (List.mem_range.mp hi) j hj]
    by_cases hij : i = j
    · rw [if_pos hij]
      exact abs_one
    · rw [if_neg hij]
      exact abs_zero
  rw [hmap, sum_map_ite_range n j 1 hj, zero_add]

theorem anormFold_const (g : ℕ → ℚ) :
    ∀ (l : List ℕ) (acc : ℚ), acc ≤ 1 → (∀ j ∈ l, g j = 1) → l ≠ [] →
      l.foldl (fun acc j => if g j > acc then g j else acc) acc = 1 := by
  intro l
  induction l with
  | nil => intro acc _ _ hne; exact absurd rfl hne
  | cons x xs ih =>
    intro acc hacc hg _
    have hx : g x = 1 := hg x (List.mem_cons_self x xs)
    have hstep : (if g x > acc then g x else acc) = 1 := by
      rw [hx]
      rcases lt_or_le acc 1 with h | h
      · rw [if_pos h]
      · rw [if_neg (not_lt.mpr h)]
        exact le_antisymm hacc h
    rw [List.foldl_cons, hstep]
    cases xs with
    | nil => rfl
    | cons y ys =>
      exact ih 1 le_rfl (fun j hj => hg j (List.mem_cons_of_mem x hj)) (by simp)

theorem anormOf_id (a : Buf) (ndim n : ℕ) (hn : 1 ≤ n) (ha : IsIdOn a ndim n) :
    anormOf a ndim n = 1 := by
  unfold anormOf
  have hne : List.range n ≠ [] := by
    intro hcon
    rw [List.range_eq_nil] at hcon
    omega
  exact anormFold_const (fun j => colAbsSum a ndim n j) (List.range n) 0 (by norm_num)
    (fun j hj => colAbsSum_id a ndim n ha j (List.mem_range.mp hj)) hne

theorem pivotFold_const2 (a : Buf) (ndim k : ℕ) :
    ∀ (l : List ℕ) (mp : ℕ × ℚ), (∀ i ∈ l, ¬(|a (i * ndim + k)| > mp.2)) →
      l.foldl (pivotFoldF a ndim k) mp = mp := by
  intro l
  induction l with
  | nil => intro mp _; rfl
  | cons x xs ih =>
    intro mp h
    have hstep : pivotFoldF a ndim k mp x = mp := by
      show (if |a (x * ndim + k)| > mp.2 then (x, |a (x * ndim + k)|) else mp) = mp
      rw [if_neg (h x (List.mem_cons_self x xs))]
    rw [List.foldl_cons, hstep]
    exact ih mp fun i hi => h i (List.mem_cons_of_mem x hi)

theorem pivotSearch_id (a : Buf) (ndim n k : ℕ) (hk : k < n) (ha : IsIdOn a ndim n) :
    pivotSearch a ndim n k = k := by
  have h : ∀ i ∈ List.range' (k + 1) (n - (k + 1)),
      ¬(|a (i * ndim + k)| > |a (k * ndim + k)|) := by
    intro i hi
    rw [List.mem_range'_1] at hi
    rw [ha i (by omega) k hk, ha k hk k hk, if_neg (by omega : i ≠ k), if_pos rfl,
        abs_zero, abs_one]
    norm_num
  unfold pivotSearch
  rw [pivotFold_const2 a ndim k (List.range' (k + 1) (n - (k + 1)))
    (k, |a (k * ndim + k)|) h]

theorem elimRow_def (ndim n k : ℕ) (pvt anorm : ℚ) (b : Buf) (i : ℕ) :
    elimRow ndim n k pvt anorm b i =
      (List.range' (k + 1) (n - (k + 1))).foldl
        (fun c j =>
          if |(-(b (i * ndim + k) / pvt))| > anorm * EPSILON then
            upd c (i * ndim + j)
              (c (i * ndim + j) + c (k * ndim + j) * (-(b (i * ndim + k) / pvt)))
          else c)
        (upd b (i * ndim + k) (-(b (i * ndim + k) / pvt))) := rfl

theorem elimRow_id (ndim n k : ℕ) (hk : k < n) (b : Buf) (i : ℕ)
    (hi1 : k + 1 ≤ i) (hi2 : i < n) (hb : IsIdOn b ndim n) :
    ∀ x, elimRow ndim n k 1 1 b i x = b x := by
  intro x
  have hbik : b (i * ndim + k) = 0 := by
    rw [hb i hi2 k hk, if_neg (by omega : i ≠ k)]
  rw [elimRow_def, hbik]
  have hcond : ¬(|(-((0 : ℚ) / 1))| > 1 * EPSILON) := by norm_num [EPSILON]
  rw [foldl_fixed _ _ _ (fun y j _ => by rw [if_neg hcond])]
  by_cases hx : x = i * ndim + k
  · subst hx
    rw [upd_same, hbik]
    norm_num
  · rw [upd_ne _ _ hx]

theorem elimFold_id (ndim n k : ℕ) (hk : k + 1 < n) (a : Buf)
    (ha : IsIdOn a ndim n) :
    (∀ x, (List.range' (k + 1) (n - (k + 1))).foldl (elimRow ndim n k 1 1) a x = a x)
    ∧ IsIdOn ((List.range' (k + 1) (n - (k + 1))).foldl (elimRow ndim n k 1 1) a)
        ndim n := by
  have hfix := foldl_pointwise_fixed_of_inv (fun b => IsIdOn b ndim n)
    (fun b c h hb => isIdOn_ext ndim n b c h hb) (elimRow ndim n k 1 1)
    (List.range' (k + 1) (n - (k + 1)))
    (fun b i hi hb x => by
      rw [List.mem_range'_1] at hi
      exact elimRow_id ndim n k (by omega) b i (by omega) (by omega) hb x)
  exact ⟨hfix a ha, isIdOn_ext ndim n a _ (fun x => (hfix a ha x).symm) ha⟩

theorem elimStep_id (ndim n k : ℕ) (a : Buf) (p : ℕ → ℤ) (hk : k + 1 < n)
    (ha : IsIdOn a ndim n) :
    elimStep ndim n k 1 a p =
      .ok ((List.range' (k + 1) (n - (k + 1))).foldl (elimRow ndim n k 1 1) a)
        (updI p k (k : ℤ))
    ∧ IsIdOn ((List.range' (k + 1) (n - (k + 1))).foldl (elimRow ndim n k 1 1) a)
        ndim n := by
  have hm : pivotSearch a ndim n k = k := pivotSearch_id a ndim n k (by omega) ha
  have hakk : a (k * ndim + k) = 1 := by
    rw [ha k (by omega) k (by omega), if_pos rfl]
  refine ⟨?_, (elimFold_id ndim n k hk a ha).2⟩
  rw [elimStep_eq, hm, hakk]
  rw [if_neg (by rw [abs_one]; norm_num [EPSILON])]
  rw [if_pos rfl, if_pos rfl]

theorem elimLoop_id (ndim n : ℕ) :
    ∀ (ks : List ℕ) (a : Buf) (p : ℕ → ℤ), (∀ k ∈ ks, k + 1 < n) → IsIdOn a ndim n →
      ∃ a1 p1, elimLoop ndim n 1 ks a p = .ok a1 p1 ∧ IsIdOn a1 ndim n ∧
        ∀ j, p1 j = if j ∈ ks then (j : ℤ) else p j := by
  intro ks
  induction ks with
  | nil =>
    intro a p _ ha
    exact ⟨a, p, rfl, ha, fun j => by simp⟩
  | cons k ks ih =>
    intro a p hks ha
    have hk : k + 1 < n := hks k (List.mem_cons_self k ks)
    obtain ⟨hstep, ha1⟩ := elimStep_id ndim n k a p hk ha
    obtain ⟨a2, p2, hloop, ha2, hp2⟩ := ih
      ((List.range' (k + 1) (n - (k + 1))).foldl (elimRow ndim n k 1 1) a)
      (updI p k (k : ℤ)) (fun j hj => hks j (List.mem_cons_of_mem k hj)) ha1
    refine ⟨a2, p2, ?_, ha2, ?_⟩
    · rw [elimLoop_cons_ok ndim n 1 k ks a p _ _ hstep, hloop]
    · intro j
      rw [hp2 j]
      by_cases hjks : j ∈ ks
      · rw [if_pos hjks, if_pos (List.mem_cons_of_mem k hjks)]
      · rw [if_neg hjks]
        by_cases hjk : j = k
        · subst hjk
          rw [updI_same, if_pos (List.mem_cons_self j ks)]
        · rw [updI_ne _ _ hjk, if_neg (by simp [List.mem_cons, hjk, hjks])]

theorem condLoop1_cons_some (ndim n : ℕ) (anorm : ℚ) (a : Buf) (k : ℕ) (ks : List ℕ)
    (w : Buf) (h : ¬(|a (k * ndim + k)| < anorm * EPSILON)) :
    condLoop1 ndim n anorm a (k :: ks) w =
      condLoop1 ndim n anorm a ks
        (upd w k
          (-((if (List.range k).foldl (fun s i => s + a (i * ndim + k) * w i) 0 < 0
              then (-1 : ℚ) else 1) +
             (List.range k).foldl (fun s i => s + a (i * ndim + k) * w i) 0) /
           a (k * ndim + k))) := by
  conv_lhs => unfold condLoop1
  rw [if_neg h]

theorem condLoop1_id (ndim n : ℕ) (a : Buf) (ha : IsIdOn a ndim n) :
    ∀ (ks : List ℕ) (w : Buf), (∀ k ∈ ks, k < n) →
      ∃ w1, condLoop1 ndim n 1 a ks w = some w1 ∧
        ∀ j, w1 j = if j ∈ ks then -1 else w j := by
  intro ks
  induction ks with
  | nil =>
    intro w _
    exact ⟨w, rfl, fun j => by simp⟩
  | cons k ks ih =>
    intro w hks
    have hk : k < n := hks k (List.mem_cons_self k ks)
    have hakk : a (k * ndim + k) = 1 := by rw [ha k hk k hk, if_pos rfl]
    have ht : (List.range k).foldl (fun s i => s + a (i * ndim + k) * w i) 0 = 0 := by
      refine foldl_add_zero _ (List.range k) 0 ?_
      intro i hi
      have hik : i < k := List.mem_range.mp hi
      rw [ha i (by omega) k hk, if_neg (by omega : i ≠ k)]
      ring
    have hbail : ¬(|a (k * ndim + k)| < 1 * EPSILON) := by
      rw [hakk, abs_one]
      norm_num [EPSILON]
    rw [condLoop1_cons_some ndim n 1 a k ks w hbail, ht, hakk]
    have hval : (-((if (0 : ℚ) < 0 then (-1 : ℚ) else 1) + 0) / 1) = -1 := by norm_num
    rw [hval]
    obtain ⟨w1, hrec, hw1⟩ := ih (upd w k (-1))
      (fun j hj => hks j (List.mem_cons_of_mem k hj))
    refine ⟨w1, hrec, ?_⟩
    intro j
    rw [hw1 j]
    by_cases hjks : j ∈ ks
    · rw [if_pos hjks, if_pos (List.mem_cons_of_mem k hjks)]
    · rw [if_neg hjks]
      by_cases hjk : j = k
      · subst hjk
        rw [upd_same, if_pos (List.mem_cons_self j ks)]
      · rw [upd_ne _ _ hjk, if_neg (by simp [List.mem_cons, hjk, hjks])]

theorem condLoop2_cons_noswap (ndim n : ℕ) (a : Buf) (p : ℕ → ℤ) (k : ℕ)
    (ks : List ℕ) (w : Buf) (hm : (p k).toNat = k) :
    condLoop2 ndim n a p (k :: ks) w =
      condLoop2 ndim n a p ks
        (upd w k ((List.range' (k + 1) (n - (k + 1))).foldl
          (fun s i => s + a (i * ndim + k) * w i) 0)) := by
  conv_lhs => unfold condLoop2
  rw [hm]
  show condLoop2 ndim n a p ks
      (if k = k then
        upd w k ((List.range' (k + 1) (n - (k + 1))).foldl
          (fun s i => s + a (i * ndim + k) * w i) 0)
       else
        upd (upd (upd w k ((List.range' (k + 1) (n - (k + 1))).foldl
              (fun s i => s + a (i * ndim + k) * w i) 0)) k
            ((upd w k ((List.range' (k + 1) (n - (k + 1))).foldl
              (fun s i => s + a (i * ndim + k) * w i) 0)) k)) k
          ((upd w k ((List.range' (k + 1) (n - (k + 1))).foldl
            (fun s i => s + a (i * ndim + k) * w i) 0)) k)) = _
  rw [if_pos rfl]

theorem condLoop2_id (ndim n : ℕ) (a : Buf) (p : ℕ → ℤ) (ha : IsIdOn a ndim n) :
    ∀ (ks : List ℕ) (w : Buf), (∀ k ∈ ks, k < n ∧ (p k).toNat = k) →
      ∀ j, condLoop2 ndim n a p ks w j = if j ∈ ks then 0 else w j := by
  intro ks
  induction ks with
  | nil =>
    intro w _ j
    simp [condLoop2]
  | cons k ks ih =>
    intro w hks j
    obtain ⟨hk, hpk⟩ := hks k (List.mem_cons_self k ks)
    have ht : (List.range' (k + 1) (n - (k + 1))).foldl
        (fun s i => s + a (i * ndim + k) * w i) 0 = 0 := by
      refine foldl_add_zero _ _ 0 ?_
      intro i hi
      rw [List.mem_range'_1] at hi
      rw [ha i (by omega) k hk, if_neg (by omega : i ≠ k)]
      ring
    rw [condLoop2_cons_noswap ndim n a p k ks w hpk,
        ih _ (fun j2 hj2 => hks j2 (List.mem_cons_of_mem k hj2)) j]
    by_cases hjks : j ∈ ks
    · rw [if_pos hjks, if_pos (List.mem_cons_of_mem k hjks)]
    · rw [if_neg hjks]
      by_cases hjk : j = k
      · subst hjk
        rw [upd_same, ht, if_pos (List.mem_cons_self j ks)]
      · rw [upd_ne _ _ hjk, if_neg (by simp [List.mem_cons, hjk, hjks])]

theorem solveQ_id (n ndim : ℕ) (a : Buf) (p : ℕ → ℤ) (hn : 2 ≤ n)
    (ha : IsIdOn a ndim n) (hp : ∀ k, k < n - 1 → (p k).toNat = k) :
    ∀ (b : Buf) (x : ℕ), solveQ n ndim a b p x = b x := by
  intro b x
  unfold solveQ
  rw [if_neg (by omega : ¬n = 1)]
  show ((List.range n).reverse.foldl
      (fun b k =>
        upd b k
          (((List.range' (k + 1) (n - (k + 1))).foldl
            (fun s j => s - a (k * ndim + j) * b j) (b k)) / a (k * ndim + k)))
      ((List.range (n - 1)).foldl
        (fun b k =>
          (List.range' (k + 1) (n - (k + 1))).foldl
            (fun c i => upd c i (c i + a (i * ndim + k) * b ((p k).toNat)))
            (upd (upd b ((p k).toNat) (b k)) k (b ((p k).toNat))))
        b)) x = b x
  have hfwd : ∀ (c : Buf) (k : ℕ), k ∈ List.range (n - 1) → ∀ y,
      ((List.range' (k + 1) (n - (k + 1))).foldl
        (fun d i => upd d i (d i + a (i * ndim + k) * c ((p k).toNat)))
        (upd (upd c ((p k).toNat) (c k)) k (c ((p k).toNat)))) y = c y := by
    intro c k hk y
    have hkn : k < n - 1 := List.mem_range.mp hk
    have hm : (p k).toNat = k := hp k hkn
    rw [hm]
    have hinner : ∀ (d : Buf) (i : ℕ), i ∈ List.range' (k + 1) (n - (k + 1)) → ∀ z,
        upd d i (d i + a (i * ndim + k) * c k) z = d z := by
      intro d i hi z
      rw [List.mem_range'_1] at hi
      have hai : a (i * ndim + k) = 0 := by
        rw [ha i (by omega) k (by omega), if_neg (by omega : i ≠ k)]
      rw [hai]
      by_cases hz : z = i
      · subst hz
        rw [upd_same]
        ring
      · rw [upd_ne _ _ hz]
    rw [foldl_pointwise_fixed _ _ hinner]
    by_cases hy : y = k
    · subst hy
      rw [upd_same]
    · rw [upd_ne _ _ hy, upd_ne _ _ hy]
  have hback : ∀ (c : Buf) (k : ℕ), k ∈ (List.range n).reverse → ∀ y,
      (upd c k
        (((List.range' (k + 1) (n - (k + 1))).foldl
          (fun s j => s - a (k * ndim + j) * c j) (c k)) / a (k * ndim + k))) y = c y := by
    intro c k hk y
    rw [List.mem_reverse, List.mem_range] at hk
    have ht : (List.range' (k + 1) (n - (k + 1))).foldl
        (fun s j => s - a (k * ndim + j) * c j) (c k) = c k := by
      refine foldl_sub_zero _ _ (c k) ?_
      intro j hj
      rw [List.mem_range'_1] at hj
      rw [ha k hk j (by omega), if_neg (by omega : k ≠ j)]
      ring
    have hakk : a (k * ndim + k) = 1 := by
      rw [ha k hk k hk, if_pos rfl]
    rw [ht, hakk, div_one]
    by_cases hy : y = k
    · subst hy
      rw [upd_same]
    · rw [upd_ne _ _ hy]
  rw [foldl_pointwise_fixed _ _ hback, foldl_pointwise_fixed _ _ hfwd]

theorem l1norm_congr (v w : Buf) (n : ℕ) (h : ∀ i, i < n → v i = w i) :
    l1norm v n = l1norm w n := by
  unfold l1norm
  rw [foldl_add_eq, foldl_add_eq]
  have hmap : (List.range n).map (fun i => |v i|) = (List.range n).map (fun i => |w i|) := by
    apply List.map_congr_left
    intro i hi
    rw [h i (List.mem_range.mp hi)]
  rw [hmap]

theorem l1norm_single (w : Buf) (n j0 : ℕ) (hj0 : j0 < n)
    (hw : ∀ i, i < n → w i = if i = j0 then -1 else 0) : l1norm w n = 1 := by
  unfold l1norm
  rw [foldl_add_eq]
  have hmap : (List.range n).map (fun i => |w i|) =
      (List.range n).map (fun i => if i = j0 then (1 : ℚ) else 0) := by
    apply List.map_congr_left
    intro i hi
    rw [hw i (List.mem_range.mp hi)]
    by_cases hij : i = j0
    · simp [hij]
    · simp [hij]
  rw [hmap, sum_map_ite_range n j0 1 hj0, zero_add]

theorem idB_isIdOn (n : ℕ) (hn : 0 < n) : IsIdOn (idB n) n n := by
  intro i hi j hj
  unfold idB
  have hdiv : (i * n + j) / n = i := by
    rw [Nat.mul_comm i n, Nat.mul_add_div hn, Nat.div_eq_of_lt hj, Nat.add_zero]
  have hmod : (i * n + j) % n = j := by
    rw [Nat.mul_comm i n, Nat.mul_add_mod]
    exact Nat.mod_eq_of_lt hj
  rw [hdiv, hmod]

/-!  Claim theorems. -/

/-- C8: for order 1, factoring `[[0]]` yields status Singular (flag 3) with
condition `1e32`; factoring `[[5]]` yields status OK (flag 0) with condition
`1.0`; and solving right-hand side `[10]` against `[[5]]` produces `[2]`
through the trivial `b[0] /= a[0]` branch. -/
theorem order_one_factor_and_solve :
    (decompQ 1 1 false false zeroB 0 zeroP).flag = 3
    ∧ (decompQ 1 1 false false zeroB 0 zeroP).cond = 10 ^ 32
    ∧ (decompQ 1 1 false false (fun _ => (5 : ℚ)) 0 zeroP).flag = 0
    ∧ (decompQ 1 1 false false (fun _ => (5 : ℚ)) 0 zeroP).cond = 1
    ∧ solveQ 1 1 (fun _ => (5 : ℚ)) (fun _ => 10) zeroP 0 = 2
    ∧ (SolveOp [[(5 : ℚ)]] [10]).map (fun o => o.data_right 0) = .ok 2 := by
  refine ⟨?_, ?_, ?_, ?_, ?_, ?_⟩ <;>
    norm_num [decompQ, DecompOp, SolveOp, solveWithFactor, solveQ, condEstimate,
      condLoop1, condLoop2, elimLoop, elimStep, pivotSearch, pivotFoldF, swapRows, elimRow,
      anormOf, colAbsSum, l1norm, upd, updI, EPSILON, exceptIsOk, Except.map,
      zeroB, zeroP, range_zero, range_one, range_two, range_three, range'_zero,
      range'_one, range'_two]

/-- C9: factoring `[[0,1],[1,0]]` selects row 1 as the pivot for column 0
(`permutation[0] = 1`), and solving `b = [2,5]` against it produces exactly
`x = [5,2]`. -/
theorem antidiagonal_pivot_and_solve :
    (DecompOp [[(0 : ℚ), 1], [1, 0]]).map (fun d => d.pivot 0) = .ok 1
    ∧ (SolveOp [[(0 : ℚ), 1], [1, 0]] [2, 5]).map
        (fun o => (o.data_right 0, o.data_right 1)) = .ok (5, 2) := by
  constructor <;>
    norm_num [decompQ, DecompOp, SolveOp, solveWithFactor, solveQ, condEstimate,
      condLoop1, condLoop2, elimLoop, elimStep, pivotSearch, pivotFoldF, swapRows, elimRow,
      anormOf, colAbsSum, l1norm, upd, updI, EPSILON, exceptIsOk, Except.map,
      range_zero, range_one, range_two, range_three, range'_zero, range'_one,
      range'_two]

/-- C10: neither `details::solve` nor `Solve::operator()` examines the
factorization's status flag: the solve result depends only on the factor
buffer and the pivot record, never on `flag_` or `cond_`; and on the singular
matrix `[[1,1],[1,1]]` (whose factorization has flag 3 and a zero diagonal
cell `a[1][1]`) the solver still executes unconditionally and returns rather
than failing. -/
theorem solve_ignores_factor_status :
    (∀ (n : ℕ) (a : Buf) (p : ℕ → ℤ) (c₁ c₂ : ℚ) (f₁ f₂ : ℕ) (b : Buf),
        solveWithFactor n ⟨a, p, c₁, f₁⟩ b = solveWithFactor n ⟨a, p, c₂, f₂⟩ b)
    ∧ (DecompOp [[(1 : ℚ), 1], [1, 1]]).map (fun d => (d.flag, d.a 3, d.cond)) =
        .ok (3, 0, 10 ^ 32)
    ∧ exceptIsOk (SolveOp [[(1 : ℚ), 1], [1, 1]] [1, 2]) = true := by
  refine ⟨fun _ _ _ _ _ _ _ _ => rfl, ?_, ?_⟩ <;>
    norm_num [decompQ, DecompOp, SolveOp, solveWithFactor, solveQ, condEstimate,
      condLoop1, condLoop2, elimLoop, elimStep, pivotSearch, pivotFoldF, swapRows, elimRow,
      anormOf, colAbsSum, l1norm, upd, updI, EPSILON, exceptIsOk, Except.map,
      range_zero, range_one, range_two, range_three, range'_zero, range'_one,
      range'_two]

/-- C2: whenever `Solve::operator()` returns, the caller-visible right-hand
side is element-for-element unchanged: the solver copies it into internally
owned storage and never writes the solution back. -/
theorem solver_leaves_caller_rhs_unchanged :
    ∀ (ml : List (List ℚ)) (mr : List ℚ),
      exceptIsOk (SolveOp ml mr) = true →
      (SolveOp ml mr).map (fun o => o.caller_right) = .ok mr := by
  intro ml mr h
  unfold SolveOp at h ⊢
  by_cases hlen : ml.length ≠ mr.length
  · rw [if_pos hlen] at h
    simp [exceptIsOk] at h
  · rw [if_neg hlen] at h ⊢
    cases hD : DecompOp ml with
    | error e => rw [hD] at h; simp [exceptIsOk] at h
    | ok dec => rfl

/-- Witness for C2 at the concrete call `Solve()([[5]], [10])`. -/
theorem solver_leaves_caller_rhs_unchanged_witness :
    (SolveOp [[(5 : ℚ)]] [10]).map (fun o => o.caller_right) = .ok [10] :=
  solver_leaves_caller_rhs_unchanged [[(5 : ℚ)]] [10] (by
    norm_num [decompQ, DecompOp, SolveOp, solveWithFactor, solveQ, condEstimate,
      condLoop1, condLoop2, elimLoop, elimStep, pivotSearch, pivotFoldF, swapRows, elimRow,
      anormOf, colAbsSum, l1norm, upd, updI, EPSILON, exceptIsOk, Except.map,
      range_zero, range_one, range_two, range_three, range'_zero, range'_one,
      range'_two])

/-- C3 (amended): an empty matrix, or one whose row count differs from its
first row's length, makes `Decomp::operator()` throw before any mutation;
and `details::decomp` with illegal input (null `a`, null `pivot`, `n < 1`,
or `ndim < n`) sets flag 2 and returns the buffer, the pivot record and the
condition cell unchanged.  Ragged inputs whose first-row length equals the
row count are not rejected. -/
theorem factor_input_validation :
    (∀ m : List (List ℚ), m = [] → DecompOp m = .error "Check matrix")
    ∧ (∀ m : List (List ℚ), m ≠ [] → m.length ≠ m.headI.length →
        DecompOp m = .error "Check size of matrix")
    ∧ (∀ (n ndim : ℕ) (aN pN : Bool) (a : Buf) (c : ℚ) (p : ℕ → ℤ),
        aN = true ∨ pN = true ∨ n < 1 ∨ ndim < n →
        decompQ n ndim aN pN a c p = ⟨a, p, c, 2⟩) := by
  refine ⟨?_, ?_, ?_⟩
  · intro m h
    subst h
    rfl
  · intro m h1 h2
    unfold DecompOp
    rw [if_neg (by simpa using h1), if_pos h2]
  · intro n ndim aN pN a c p h
    exact decompQ_flag2 n ndim aN pN a c p h

/-- Counterexample for C3 as stated: the ragged, hence non-square, input
`[[1,2],[3]]` (2 rows, first row of length 2, second of length 1) is not
rejected: `Decomp::operator()` proceeds without a ConfigurationError. -/
theorem factor_accepts_ragged_nonsquare :
    exceptIsOk (DecompOp [[(1 : ℚ), 2], [3]]) = true
    ∧ [[(1 : ℚ), 2], [3]].length = 2 ∧ [(3 : ℚ)].length = 1 := by
  refine ⟨?_, rfl, rfl⟩
  norm_num [decompQ, DecompOp, solveQ, condEstimate, condLoop1, condLoop2,
    elimLoop, elimStep, pivotSearch, pivotFoldF, swapRows, elimRow, anormOf, colAbsSum,
    l1norm, upd, updI, EPSILON, exceptIsOk, range_zero, range_one, range_two,
    range_three, range'_zero, range'_one, range'_two]

/-- Witness for C3 (amended) at concrete inputs: the empty matrix, the
rectangular non-square matrix `[[1],[2]]`, and an illegal `n = 0` call of
`details::decomp`. -/
theorem factor_input_validation_witness :
    DecompOp ([] : List (List ℚ)) = .error "Check matrix"
    ∧ DecompOp [[(1 : ℚ)], [2]] = .error "Check size of matrix"
    ∧ decompQ 0 0 false false zeroB 5 (fun _ => 7) = ⟨zeroB, (fun _ => 7), 5, 2⟩ :=
  ⟨factor_input_validation.1 [] rfl,
   factor_input_validation.2.1 [[(1 : ℚ)], [2]] (by decide) (by decide),
   factor_input_validation.2.2 0 0 false false zeroB 5 (fun _ => 7)
     (Or.inr (Or.inr (Or.inl (by decide))))⟩

/-- C4: a pivot below `norm · EPSILON` met during elimination, or a diagonal
cell below it met during the condition-estimation back-substitution, makes
`decomp` set condition `1e32` and flag 3 (Singular) and terminate at once,
leaving the buffer in its current unfinished state: the bailing step applies
the row swap but no elimination, the remaining steps are skipped, and
`decomp` returns the loop's buffer and pivot record as they stand. -/
theorem singular_bailout :
    (∀ (ndim n k : ℕ) (anorm : ℚ) (a : Buf) (p : ℕ → ℤ),
        |a (pivotSearch a ndim n k * ndim + k)| < anorm * EPSILON →
        elimStep ndim n k anorm a p =
          .singular
            (if pivotSearch a ndim n k = k then a
             else swapRows a ndim n k (pivotSearch a ndim n k))
            ((elimStep ndim n k anorm a p).pOut))
    ∧ (∀ (ndim n : ℕ) (anorm : ℚ) (k : ℕ) (ks : List ℕ) (a : Buf) (p : ℕ → ℤ)
        (a1 : Buf) (p1 : ℕ → ℤ),
        elimStep ndim n k anorm a p = .singular a1 p1 →
        elimLoop ndim n anorm (k :: ks) a p = .singular a1 p1)
    ∧ (∀ (n ndim : ℕ) (a : Buf) (c : ℚ) (p : ℕ → ℤ) (a1 : Buf) (p1 : ℕ → ℤ),
        ¬(n < 1 ∨ ndim < n) → n ≠ 1 →
        elimLoop ndim n (anormOf a ndim n) (List.range (n - 1)) a (updI p (n - 1) 1) =
          .singular a1 p1 →
        decompQ n ndim false false a c p = ⟨a1, p1, 10 ^ 32, 3⟩)
    ∧ (∀ (ndim n : ℕ) (anorm : ℚ) (a : Buf) (k : ℕ) (ks : List ℕ) (w : Buf),
        |a (k * ndim + k)| < anorm * EPSILON →
        condLoop1 ndim n anorm a (k :: ks) w = none)
    ∧ (∀ (n ndim : ℕ) (a : Buf) (c : ℚ) (p : ℕ → ℤ) (a1 : Buf) (p1 : ℕ → ℤ),
        ¬(n < 1 ∨ ndim < n) → n ≠ 1 →
        elimLoop ndim n (anormOf a ndim n) (List.range (n - 1)) a (updI p (n - 1) 1) =
          .ok a1 p1 →
        condLoop1 ndim n (anormOf a ndim n) a1 (List.range n) (fun _ => 0) = none →
        decompQ n ndim false false a c p = ⟨a1, p1, 10 ^ 32, 3⟩) := by
  refine ⟨?_, ?_, ?_, ?_, ?_⟩
  · intro ndim n k anorm a p h
    rw [elimStep_pOut, elimStep_eq, if_pos h]
  · exact elimLoop_cons_singular
  · intro n ndim a c p a1 p1 hg hn1 hE
    exact decompQ_elim_singular n ndim a c p a1 p1 hg hn1 hE
  · intro ndim n anorm a k ks w h
    exact condLoop1_cons_none ndim n anorm a k ks w h
  · intro n ndim a c p a1 p1 hg hn1 hE hC
    exact decompQ_cond1_none n ndim a c p a1 p1 hg hn1 hE hC

/-- Witness for C4: the 2×2 matrix `[[0,1],[0,1]]`, whose first column is
zero, makes elimination bail out at step 0, and `decomp` returns the buffer
untouched with flag 3 and condition `1e32`; and the buffer `[[2,2],[1,0]]`
makes the first condition-estimation loop bail at its zero diagonal cell. -/
theorem singular_bailout_witness :
    decompQ 2 2 false false exColZero2 0 zeroP =
      ⟨exColZero2, updI (updI zeroP 1 1) 0 0, 10 ^ 32, 3⟩
    ∧ condLoop1 2 2 2 exCondBail2 [1] zeroB = none :=
  ⟨singular_bailout.2.2.1 2 2 exColZero2 0 zeroP exColZero2
      (updI (updI zeroP 1 1) 0 0) (by decide) (by decide)
      (by norm_num [elimLoop, elimStep, pivotSearch, pivotFoldF, swapRows, elimRow, anormOf,
        colAbsSum, upd, updI, EPSILON, exColZero2, zeroP, range_zero, range_one,
        range_two, range'_zero, range'_one, range'_two]),
   singular_bailout.2.2.2.1 2 2 2 exCondBail2 1 [] zeroB
     (by norm_num [exCondBail2, EPSILON])⟩

/-- C6: when elimination completes without a singular bail-out and the first
condition-estimation loop succeeds, `decomp` sets
`cond = norm · ‖z‖₁ / ‖y‖₁` floored at 1.0 (so the returned estimate is at
least 1.0), and sets flag 3 (Singular) exactly when `cond + 1.0` equals
`cond` in the working arithmetic, even though elimination completed. -/
theorem condition_floor_and_flag :
    ∀ (n ndim : ℕ) (a : Buf) (c : ℚ) (p : ℕ → ℤ) (a1 : Buf) (p1 : ℕ → ℤ) (w1 : Buf),
      ¬(n < 1 ∨ ndim < n) → n ≠ 1 →
      elimLoop ndim n (anormOf a ndim n) (List.range (n - 1)) a (updI p (n - 1) 1) =
        .ok a1 p1 →
      condLoop1 ndim n (anormOf a ndim n) a1 (List.range n) (fun _ => 0) = some w1 →
      (decompQ n ndim false false a c p).cond =
          max 1 (anormOf a ndim n *
            l1norm (solveQ n ndim a1
              (condLoop2 ndim n a1 p1 ((List.range (n - 1)).reverse) w1) p1) n /
            l1norm (condLoop2 ndim n a1 p1 ((List.range (n - 1)).reverse) w1) n)
      ∧ 1 ≤ (decompQ n ndim false false a c p).cond
      ∧ (decompQ n ndim false false a c p).flag =
          (if (decompQ n ndim false false a c p).cond + 1 =
              (decompQ n ndim false false a c p).cond then 3 else 0) := by
  intro n ndim a c p a1 p1 w1 hg hn1 hE hC
  have hd := decompQ_ok_path n ndim a c p a1 p1 w1 hg hn1 hE hC
  rw [hd]
  refine ⟨condEstimate_fst n ndim (anormOf a ndim n) a1 p1 w1, ?_, ?_⟩
  · rw [condEstimate_fst n ndim (anormOf a ndim n) a1 p1 w1]
    exact le_max_left 1 _
  · exact condEstimate_snd n ndim (anormOf a ndim n) a1 p1 w1

/-- Witness for C6 on the well-conditioned matrix `[[2,1],[1,3]]`. -/
theorem condition_floor_and_flag_witness :
    1 ≤ (decompQ 2 2 false false exWell2 0 zeroP).cond
    ∧ (decompQ 2 2 false false exWell2 0 zeroP).flag =
        (if (decompQ 2 2 false false exWell2 0 zeroP).cond + 1 =
            (decompQ 2 2 false false exWell2 0 zeroP).cond then 3 else 0) := by
  have hOk : (elimLoop 2 2 (anormOf exWell2 2 2) (List.range (2 - 1)) exWell2
      (updI zeroP (2 - 1) 1)).isOkB = true := by
    norm_num [elimLoop, elimStep, ElimResult.isOkB, pivotSearch, pivotFoldF, swapRows,
      elimRow, anormOf, colAbsSum, upd, updI, EPSILON, exWell2, zeroP, range_zero,
      range_one, range_two, range'_zero, range'_one, range'_two]
  cases hE : elimLoop 2 2 (anormOf exWell2 2 2) (List.range (2 - 1)) exWell2
      (updI zeroP (2 - 1) 1) with
  | singular a1 p1 =>
    rw [hE] at hOk
    exact absurd hOk (by simp [ElimResult.isOkB])
  | ok a1 p1 =>
    have ha1 : a1 = (elimLoop 2 2 (anormOf exWell2 2 2) (List.range (2 - 1)) exWell2
        (updI zeroP (2 - 1) 1)).aOut := by rw [hE]; rfl
    have hSome : (condLoop1 2 2 (anormOf exWell2 2 2) a1 (List.range 2)
        (fun _ => 0)).isSome = true := by
      rw [ha1]
      norm_num [condLoop1, elimLoop, elimStep, ElimResult.aOut, pivotSearch, pivotFoldF,
        swapRows, elimRow, anormOf, colAbsSum, upd, updI, EPSILON, exWell2, zeroP,
        range_zero, range_one, range_two, range'_zero, range'_one, range'_two,
        abs_div, abs_neg]
    cases hC : condLoop1 2 2 (anormOf exWell2 2 2) a1 (List.range 2) (fun _ => 0) with
    | none =>
      rw [hC] at hSome
      exact absurd hSome (by simp)
    | some w1 =>
      exact (condition_floor_and_flag 2 2 exWell2 0 zeroP a1 p1 w1 (by omega)
        (by omega) hE hC).2

/-- C5: for every elimination step `k`, the recorded pivot row
`permutation[k]` is the index in `[k, n-1]` with the largest absolute value
in column `k`; the step's buffer is the swapped one exactly when that row
differs from `k` (the structural equation of `elimStep`); and across the
loop the sign cell `permutation[n-1]` equals `(-1)` raised to the number of
interchanges performed so far, hence `+1` or `-1` when it starts at `1`. -/
theorem pivoting_bookkeeping :
    (∀ (a : Buf) (ndim n k : ℕ), k < n →
        k ≤ pivotSearch a ndim n k ∧ pivotSearch a ndim n k < n ∧
          ∀ i, k ≤ i → i < n →
            |a (i * ndim + k)| ≤ |a (pivotSearch a ndim n k * ndim + k)|)
    ∧ (∀ (ndim n k : ℕ) (anorm : ℚ) (a : Buf) (p : ℕ → ℤ), k + 1 < n →
        (elimStep ndim n k anorm a p).pOut k = (pivotSearch a ndim n k : ℤ))
    ∧ (∀ (ndim n k : ℕ) (anorm : ℚ) (a : Buf) (p : ℕ → ℤ),
        elimStep ndim n k anorm a p =
          (if |a (pivotSearch a ndim n k * ndim + k)| < anorm * EPSILON then
            ElimResult.singular
              (if pivotSearch a ndim n k = k then a
               else swapRows a ndim n k (pivotSearch a ndim n k))
              ((elimStep ndim n k anorm a p).pOut)
          else
            ElimResult.ok
              ((List.range' (k + 1) (n - (k + 1))).foldl
                (elimRow ndim n k (a (pivotSearch a ndim n k * ndim + k)) anorm)
                (if pivotSearch a ndim n k = k then a
                 else swapRows a ndim n k (pivotSearch a ndim n k)))
              ((elimStep ndim n k anorm a p).pOut)))
    ∧ (∀ (ndim n : ℕ) (anorm : ℚ) (ks : List ℕ) (a : Buf) (p : ℕ → ℤ),
        (∀ k ∈ ks, k + 1 < n) →
        (elimLoop ndim n anorm ks a p).pOut (n - 1) =
          (-1) ^ elimSwapCount ndim n anorm ks a p * p (n - 1)
        ∧ (p (n - 1) = 1 →
            (elimLoop ndim n anorm ks a p).pOut (n - 1) = 1 ∨
            (elimLoop ndim n anorm ks a p).pOut (n - 1) = -1)) := by
  refine ⟨pivotSearch_spec, elimStep_pOut_k, ?_, ?_⟩
  · intro ndim n k anorm a p
    rw [elimStep_pOut, elimStep_eq]
  · intro ndim n anorm ks a p hks
    refine ⟨elimLoop_parity ndim n anorm ks a p hks, ?_⟩
    intro hp1
    rw [elimLoop_parity ndim n anorm ks a p hks, hp1, mul_one]
    rcases Nat.even_or_odd (elimSwapCount ndim n anorm ks a p) with he | ho
    · exact Or.inl he.neg_one_pow
    · exact Or.inr ho.neg_one_pow

/-- Witness for C5 on `[[0,1],[1,0]]`: the pivot search at step 0 picks an
in-range row of maximal magnitude, the step records it in the pivot array,
and the one-step loop's sign cell is `(-1)` to the interchange count. -/
theorem pivoting_bookkeeping_witness :
    pivotSearch exAnti2 2 2 0 < 2
    ∧ |exAnti2 (1 * 2 + 0)| ≤ |exAnti2 (pivotSearch exAnti2 2 2 0 * 2 + 0)|
    ∧ (elimStep 2 2 0 1 exAnti2 zeroP).pOut 0 = (pivotSearch exAnti2 2 2 0 : ℤ)
    ∧ (elimLoop 2 2 1 [0] exAnti2 oneP).pOut (2 - 1) =
        (-1) ^ elimSwapCount 2 2 1 [0] exAnti2 oneP * oneP (2 - 1)
    ∧ ((elimLoop 2 2 1 [0] exAnti2 oneP).pOut (2 - 1) = 1 ∨
        (elimLoop 2 2 1 [0] exAnti2 oneP).pOut (2 - 1) = -1) :=
  ⟨(pivoting_bookkeeping.1 exAnti2 2 2 0 (by omega)).2.1,
   (pivoting_bookkeeping.1 exAnti2 2 2 0 (by omega)).2.2 1 (by omega) (by omega),
   pivoting_bookkeeping.2.1 2 2 0 1 exAnti2 zeroP (by omega),
   (pivoting_bookkeeping.2.2.2 2 2 1 [0] exAnti2 oneP
     (by intro k hk; simp at hk; omega)).1,
   (pivoting_bookkeeping.2.2.2 2 2 1 [0] exAnti2 oneP
     (by intro k hk; simp at hk; omega)).2 rfl⟩

/-- C7: factoring the identity matrix of any order `n ≥ 1` succeeds with
flag 0 (OK) and condition exactly 1.0; the diagonal of the factor buffer is
all ones, `permutation[k] = k` for every `k < n-1`, and
`permutation[n-1] = 1`. -/
theorem identity_factorization :
    ∀ (n ndim : ℕ) (a : Buf) (c : ℚ) (p : ℕ → ℤ),
      1 ≤ n → n ≤ ndim → IsIdOn a ndim n →
      (decompQ n ndim false false a c p).flag = 0
      ∧ (decompQ n ndim false false a c p).cond = 1
      ∧ (∀ k, k < n → (decompQ n ndim false false a c p).a (k * ndim + k) = 1)
      ∧ (∀ k, k + 1 < n → (decompQ n ndim false false a c p).pivot k = k)
      ∧ (decompQ n ndim false false a c p).pivot (n - 1) = 1 := by
  intro n ndim a c p hn hnd ha
  by_cases hn1 : n = 1
  · subst hn1
    have ha0 : a 0 = 1 := by
      have h := ha 0 (by omega) 0 (by omega)
      simpa using h
    have hd : decompQ 1 ndim false false a c p = ⟨a, updI p 0 1, 1, 0⟩ := by
      unfold decompQ
      rw [if_neg (by simp; omega), if_pos rfl, if_neg (by rw [ha0]; norm_num)]
    rw [hd]
    refine ⟨rfl, rfl, ?_, ?_, ?_⟩
    · intro k hk
      have hk0 : k = 0 := by omega
      subst hk0
      simpa using ha0
    · intro k hk
      exact absurd hk (by omega)
    · exact updI_same p 0 1
  · have hn2 : 2 ≤ n := by omega
    have hanorm : anormOf a ndim n = 1 := anormOf_id a ndim n hn ha
    obtain ⟨a1, p1, hE0, ha1, hp1⟩ := elimLoop_id ndim n (List.range (n - 1)) a
      (updI p (n - 1) 1) (fun k hk => by have := List.mem_range.mp hk; omega) ha
    have hE : elimLoop ndim n (anormOf a ndim n) (List.range (n - 1)) a
        (updI p (n - 1) 1) = .ok a1 p1 := by
      rw [hanorm]
      exact hE0
    obtain ⟨w1, hC0, hw1⟩ := condLoop1_id ndim n a1 ha1 (List.range n) (fun _ => 0)
      (fun k hk => List.mem_range.mp hk)
    have hC : condLoop1 ndim n (anormOf a ndim n) a1 (List.range n) (fun _ => 0) =
        some w1 := by
      rw [hanorm]
      exact hC0
    have hd := decompQ_ok_path n ndim a c p a1 p1 w1 (by omega) hn1 hE hC
    have hp1k : ∀ k, k < n - 1 → (p1 k).toNat = k := by
      intro k hk
      rw [hp1 k, if_pos (List.mem_range.mpr hk)]
      simp
    have hp1n : p1 (n - 1) = 1 := by
      rw [hp1 (n - 1), if_neg (by simp [List.mem_range])]
      exact updI_same p (n - 1) 1
    have hw2 : ∀ j, condLoop2 ndim n a1 p1 ((List.range (n - 1)).reverse) w1 j =
        if j ∈ (List.range (n - 1)).reverse then 0 else w1 j :=
      condLoop2_id ndim n a1 p1 ha1 ((List.range (n - 1)).reverse) w1
        (fun k hk => by
          rw [List.mem_reverse, List.mem_range] at hk
          exact ⟨by omega, hp1k k hk⟩)
    have hw2n : ∀ i, i < n →
        condLoop2 ndim n a1 p1 ((List.range (n - 1)).reverse) w1 i =
          if i = n - 1 then -1 else 0 := by
      intro i hi
      rw [hw2 i]
      by_cases hin : i = n - 1
      · subst hin
        rw [if_neg (by simp [List.mem_reverse, List.mem_range]), hw1 (n - 1),
            if_pos (List.mem_range.mpr (by omega)), if_pos rfl]
      · rw [if_pos (by rw [List.mem_reverse, List.mem_range]; omega), if_neg hin]
    have hyn : l1norm (condLoop2 ndim n a1 p1 ((List.range (n - 1)).reverse) w1) n = 1 :=
      l1norm_single _ n (n - 1) (by omega) hw2n
    have hzn : l1norm (solveQ n ndim a1
        (condLoop2 ndim n a1 p1 ((List.range (n - 1)).reverse) w1) p1) n = 1 := by
      rw [l1norm_congr _ _ n (fun i _ =>
        solveQ_id n ndim a1 p1 hn2 ha1 hp1k
          (condLoop2 ndim n a1 p1 ((List.range (n - 1)).reverse) w1) i)]
      exact hyn
    have hce1 : (condEstimate n ndim (anormOf a ndim n) a1 p1 w1).1 = 1 := by
      rw [condEstimate_fst, hanorm, hzn, hyn]
      norm_num
    have hce2 : (condEstimate n ndim (anormOf a ndim n) a1 p1 w1).2 = 0 := by
      rw [condEstimate_snd, hce1]
      norm_num
    rw [hd]
    refine ⟨hce2, hce1, ?_, ?_, hp1n⟩
    · intro k hk
      have h := ha1 k hk k hk
      simpa using h
    · intro k hk
      show p1 k = (k : ℤ)
      rw [hp1 k, if_pos (List.mem_range.mpr (by omega))]

/-- Witness for C7 at the order-3 identity matrix. -/
theorem identity_factorization_witness :
    (decompQ 3 3 false false (idB 3) 0 zeroP).flag = 0
    ∧ (decompQ 3 3 false false (idB 3) 0 zeroP).cond = 1
    ∧ (decompQ 3 3 false false (idB 3) 0 zeroP).a (1 * 3 + 1) = 1
    ∧ (decompQ 3 3 false false (idB 3) 0 zeroP).pivot 0 = 0
    ∧ (decompQ 3 3 false false (idB 3) 0 zeroP).pivot (3 - 1) = 1 := by
  have h := identity_factorization 3 3 (idB 3) 0 zeroP (by omega) (by omega)
    (idB_isIdOn 3 (by omega))
  exact ⟨h.1, h.2.1, h.2.2.1 1 (by omega), h.2.2.2.1 0 (by omega), h.2.2.2.2⟩

end Dimkashelk
